import Mathlib

/-!
# protoc-gen-emmylua: the annotation generator of `genlua/main.go`

A shallow embedding of the pure parts of package `genlua`:

* `fieldGoType`            the Lua annotation type of a field,
* `trailingComment.String` the one-line form of a comment,
* `GenerateFile.filename`  the name of the generated file,
* `genGeneratedHeader`, `genEnum`, `genMessage`, `GenerateFile.document`
                           the lines printed to the generated file.

A Go `string` is a sequence of bytes: `len` counts bytes, `s[i]` is a byte and
`s[i:j]` cuts at byte offsets.  `GoString` is the list of those bytes, one list
element per byte (for ASCII text, one element per character).  The functions
below only compare elements with the ASCII bytes `'/'`, `'.'` and `'\n'`.

A nil pointer dereference and an index out of range are run-time panics in Go;
a function that can panic returns `Option`, with `none` for the panic.

The buffer of the generated file is passed from call to call as the list of the
lines printed so far; a line is the text of one call of `g.P`.  What comes from
outside the repository (the formatting of comments by `protogen`, the clock, the
compiler version) is a parameter of the functions.
-/

namespace genlua

/-- A Go string, byte by byte. -/
abbrev GoString := List Char

/-! ## The descriptor tree handed over by `protogen` -/

/-- The constants of `protoreflect.Kind`. -/
inductive Kind where
  | BoolKind | EnumKind | Int32Kind | Sint32Kind | Uint32Kind | Int64Kind | Sint64Kind
  | Uint64Kind | Sfixed32Kind | Fixed32Kind | FloatKind | Sfixed64Kind | Fixed64Kind
  | DoubleKind | StringKind | BytesKind | MessageKind | GroupKind
  deriving DecidableEq, Repr

/-- One value of an enum: `Desc.Name()`, `Desc.Number()`, `Comments.Trailing`. -/
structure EnumValue where
  Name : GoString
  Number : Int
  Trailing : GoString
  deriving DecidableEq, Repr

/-- What the generator reads of a `protogen.Enum`: `GoIdent.GoName`,
`Comments.Leading` and `Values`. -/
structure Enum where
  GoName : GoString
  Leading : GoString
  Values : List EnumValue
  deriving DecidableEq, Repr

mutual
/-- What the generator reads of a `protogen.Field`: `GoName`, `Desc.IsWeak()`,
`Desc.Kind()`, `Desc.IsList()`, `Desc.IsMap()`, the pointers `Enum` and `Message`
(`none` is the nil pointer) and `Comments.Trailing`. -/
inductive Field where
  | mk (GoName : GoString) (IsWeak : Bool) (Kind : Kind) (IsList : Bool) (IsMap : Bool)
      (Enum : Option Enum) (Message : Option Message) (Trailing : GoString)
/-- What the generator reads of a `protogen.Message`: `GoIdent.GoName`,
`Desc.IsMapEntry()`, `Comments.Leading` and `Fields`. -/
inductive Message where
  | mk (GoName : GoString) (IsMapEntry : Bool) (Leading : GoString) (Fields : List Field)
end

/-- The Go name of a field, `field.GoName`. -/
def Field.GoName : Field → GoString
  | .mk n _ _ _ _ _ _ _ => n

/-- The weak flag, `field.Desc.IsWeak()`. -/
def Field.IsWeak : Field → Bool
  | .mk _ w _ _ _ _ _ _ => w

/-- The kind tag, `field.Desc.Kind()`. -/
def Field.Kind : Field → Kind
  | .mk _ _ k _ _ _ _ _ => k

/-- The list flag, `field.Desc.IsList()`. -/
def Field.IsList : Field → Bool
  | .mk _ _ _ l _ _ _ _ => l

/-- The map flag, `field.Desc.IsMap()`. -/
def Field.IsMap : Field → Bool
  | .mk _ _ _ _ m _ _ _ => m

/-- The enum pointer, `field.Enum`. -/
def Field.Enum : Field → Option Enum
  | .mk _ _ _ _ _ e _ _ => e

/-- The message pointer, `field.Message`. -/
def Field.Message : Field → Option Message
  | .mk _ _ _ _ _ _ m _ => m

/-- The trailing comment, `field.Comments.Trailing`. -/
def Field.Trailing : Field → GoString
  | .mk _ _ _ _ _ _ _ t => t

/-- The Go name of a message, `m.GoIdent.GoName`. -/
def Message.GoName : Message → GoString
  | .mk n _ _ _ => n

/-- The map-entry flag, `m.Desc.IsMapEntry()`. -/
def Message.IsMapEntry : Message → Bool
  | .mk _ e _ _ => e

/-- The leading comment, `m.Comments.Leading`. -/
def Message.Leading : Message → GoString
  | .mk _ _ l _ => l

/-- The fields of a message, `m.Fields`. -/
def Message.Fields : Message → List Field
  | .mk _ _ _ fs => fs

/-! ## `fieldGoType` -/

/-- The first `switch` of `fieldGoType`: the value of `goType` after the switch
on `field.Desc.Kind()`.  The enum and message cases dereference `field.Enum` and
`field.Message`. -/
def fieldGoType.base (k : Kind) (en : Option Enum) (msg : Option Message) : Option GoString :=
  match k with
  | .BoolKind => some "boolean".toList
  | .EnumKind => en.map fun e => e.GoName
  | .Int32Kind | .Sint32Kind | .Sfixed32Kind => some "integer".toList
  | .Uint32Kind | .Fixed32Kind => some "integer".toList
  | .Int64Kind | .Sint64Kind | .Sfixed64Kind => some "integer".toList
  | .Uint64Kind | .Fixed64Kind => some "integer".toList
  | .FloatKind => some "float".toList
  | .DoubleKind => some "number".toList
  | .StringKind => some "string".toList
  | .BytesKind => some "any".toList
  | .MessageKind | .GroupKind => msg.map fun m => m.GoName

/-- The result of `fmt.Sprintf("table<%v,%v>", keyType, valType)` on two strings. -/
def tableOf (keyType valType : GoString) : GoString :=
  "table<".toList ++ keyType ++ ",".toList ++ valType ++ ">".toList

/-- The function `fieldGoType`: the Lua type used for a field.  The map case reads
`field.Message.Fields[0]` and `field.Message.Fields[1]`: a nil `field.Message` or
an entry with fewer than two fields panics. -/
def fieldGoType : Field → Option GoString
  | .mk _ isWeak kind isList isMap en msg _ =>
    if isWeak then some []
    else
      match fieldGoType.base kind en msg with
      | none => none
      | some goType =>
        if isList then some (goType ++ "[]".toList)
        else if isMap then
          match msg with
          | none => none
          | some (.mk _ _ _ fields) =>
            match fields with
            | key :: val :: _ =>
              match fieldGoType key with
              | none => none
              | some keyType =>
                match fieldGoType val with
                | none => none
                | some valType => some (tableOf keyType valType)
            | _ => none
        else some goType

/-! ## `trailingComment.String` -/

/-- The library function `strings.TrimSuffix`: `s` without the trailing `suffix`
when `s` ends with it, else `s`. -/
def strings.TrimSuffix (s suffix : GoString) : GoString :=
  if suffix.isSuffixOf s then s.take (s.length - suffix.length) else s

/-- The library function `strings.Contains`: whether `substr` occurs within `s`. -/
def strings.Contains (s substr : GoString) : Bool :=
  s.tails.any fun t => substr.isPrefixOf t

/-- The method `trailingComment.String`.  The argument `formatted` is the text
that the library call `protogen.Comments(c).String()` returns for the comment. -/
def trailingComment.String (formatted : GoString) : GoString :=
  let s := strings.TrimSuffix formatted "\n".toList
  if strings.Contains s "\n".toList then []
  else if s.length > 2 then s.drop 2
  else s

/-! ## The file name computed by `GenerateFile` -/

/-- The loop `for i := len(path) - 1; i >= 0 && path[i] != '/'; i--` of
`GenerateFile`, started at `i = n - 1`: the value of `filename` when the loop is
left. -/
def GenerateFile.scan (path : GoString) : (n : Nat) → n ≤ path.length → GoString
  | 0, _ => []
  | i + 1, h =>
    if path[i] = '/' then []
    else if path[i] = '.' then path.take i ++ ".lua".toList
    else GenerateFile.scan path i (Nat.le_of_succ_le h)

/-- The name `GenerateFile` gives to the generated file for `file.Desc.Path()`. -/
def GenerateFile.filename (path : GoString) : GoString :=
  let filename := GenerateFile.scan path path.length (Nat.le_refl _)
  if filename = [] then path ++ ".lua".toList else filename

/-- A proof device, not a function of the source: the loop of `GenerateFile` read
on the reversed text, where `r` is the part of the path not yet visited, last
byte first.  `scan_eq_scanRev` relates it to `GenerateFile.scan`. -/
def scanRev : List Char → GoString
  | [] => []
  | c :: r =>
    if c = '/' then []
    else if c = '.' then r.reverse ++ ".lua".toList
    else scanRev r

/-! ## The generated document

In the string literals below `\x7b` and `\x7d` are the opening and the closing
brace. -/

/-- What `fmt.Fprint` writes for an integer (`protoreflect.EnumNumber` and the
parts of the compiler version are `int32`): the decimal digits, with a leading
'-' when the number is negative. -/
def formatNumber (n : Int) : GoString := (toString n).toList

/-- The buffer of a `protogen.GeneratedFile`, as the list of the lines printed so
far: each call of `g.P` adds one element. -/
abbrev GeneratedFile := List GoString

/-- The method `g.P(v...)`: the arguments are written one after the other,
without separator, and the line is ended. -/
def GeneratedFile.P (g : GeneratedFile) (v : List GoString) : GeneratedFile :=
  g ++ [v.flatten]

/-- The compiler version of the request, `gen.Request.GetCompilerVersion()`. -/
structure Version where
  Major : Int
  Minor : Int
  Patch : Int
  deriving DecidableEq, Repr

/-- What `GenerateFile` reads from outside the descriptor tree: the library method
`protogen.Comments.String` (`format`), the package variable
`GenerateVersionMarkers`, the compiler version of the request (`none` is nil) and
the text of `time.Now().Format(time.DateTime)`. -/
structure Plugin where
  format : GoString → GoString
  GenerateVersionMarkers : Bool
  CompilerVersion : Option Version
  Now : GoString

/-- What the generator reads of a `fileInfo`, the result of `newFileInfo(file)`:
`Desc.Path()`, `Proto.GetOptions().GetDeprecated()`, `allEnums`, `allMessages`. -/
structure fileInfo where
  Path : GoString
  Deprecated : Bool
  allEnums : List Enum
  allMessages : List Message

/-- The function `genGeneratedHeader`. -/
def genGeneratedHeader (gen : Plugin) (g : GeneratedFile) (f : fileInfo) : GeneratedFile :=
  let g := g.P ["-- Code generated by protoc-gen-emmylua. DO NOT EDIT.".toList]
  let g :=
    if gen.GenerateVersionMarkers then
      let g := g.P ["-- versions:".toList]
      let protocGenGoVersion := "v1.0".toList
      let protocVersion :=
        match gen.CompilerVersion with
        | none => "(unknown)".toList
        | some v =>
          "v".toList ++ formatNumber v.Major ++ ".".toList ++ formatNumber v.Minor ++
            ".".toList ++ formatNumber v.Patch
      let g := g.P ["-- \tprotoc-gen-emmylua ".toList, protocGenGoVersion]
      let g := g.P ["-- \tprotoc        ".toList, protocVersion]
      g.P ["-- \ttime          ".toList, gen.Now]
    else g
  let g :=
    if f.Deprecated then g.P ["-- ".toList, f.Path, " is a deprecated file.".toList]
    else g.P ["-- source: ".toList, f.Path]
  let g := g.P []
  let g := g.P ["local proto = \x7b\x7d".toList]
  g.P []

/-- The function `genEnum`.  A `trailingComment` argument of `g.P` is written
through its `String` method. -/
def genEnum (format : GoString → GoString) (g : GeneratedFile) (e : Enum) : GeneratedFile :=
  let enumName := e.GoName
  let comments := trailingComment.String (format e.Leading)
  let g := g.P ["---@class ".toList, enumName, " @".toList, comments]
  let g := e.Values.foldl (fun g value =>
    g.P ["---@field public ".toList, value.Name, " integer|string @".toList,
      formatNumber value.Number, " ".toList, trailingComment.String (format value.Trailing)]) g
  let g := g.P []
  let g := g.P ["---@type ".toList, enumName]
  let g := g.P ["proto.".toList, enumName, " = \x7b".toList]
  let g := e.Values.foldl (fun g value =>
    g.P ["\t".toList, value.Name, " = ".toList, formatNumber value.Number, ",".toList]) g
  let g := g.P ["\x7d".toList]
  let g := g.P []
  let g := g.P ["---@type ".toList, enumName]
  let g := g.P ["proto.".toList, enumName, "Str = \x7b".toList]
  let g := e.Values.foldl (fun g value =>
    g.P ["\t".toList, value.Name, " = \"".toList, value.Name, "\",".toList]) g
  let g := g.P ["\x7d".toList]
  g.P []

/-- The function `genMessageField`.  The variable `comments` has the type
`trailingComment`: the test and the "@" put in front act on the comment as it
is in the descriptor, and `g.P` writes the result through its `String` method.
The call `sf.append(field.GoName)` records the name in a `structFields` and
writes nothing to `g`.  A panic of `fieldGoType` gives `none`. -/
def genMessageField (format : GoString → GoString) (g : GeneratedFile) (field : Field) :
    Option GeneratedFile :=
  match fieldGoType field with
  | none => none
  | some goType =>
    let name := field.GoName
    let comments := field.Trailing
    let comments := if comments ≠ [] then "@".toList ++ comments else comments
    some (g.P ["---@field ".toList, name, " ".toList, goType, " ".toList,
      trailingComment.String (format comments)])

/-- The function `genMessageFields`: the loop over `m.Fields`. -/
def genMessageFields (format : GoString → GoString) (g : GeneratedFile) (m : Message) :
    Option GeneratedFile :=
  m.Fields.foldlM (genMessageField format) g

/-- The function `genMessage`. -/
def genMessage (format : GoString → GoString) (g : GeneratedFile) (m : Message) :
    Option GeneratedFile :=
  if m.IsMapEntry then some g
  else
    let comments := trailingComment.String (format m.Leading)
    let g := g.P ["---@class ".toList, m.GoName, " @".toList, comments]
    match genMessageFields format g m with
    | none => none
    | some g =>
      let g := g.P []
      some (g.P ["proto.".toList, m.GoName, " = ".toList, "\"".toList, m.GoName, "\"".toList])

/-- The document part of `GenerateFile`: the lines printed to the new generated
file, or `none` when a field makes `fieldGoType` panic. -/
def GenerateFile.document (gen : Plugin) (f : fileInfo) : Option GeneratedFile :=
  let g : GeneratedFile := []
  let g := genGeneratedHeader gen g f
  let g := f.allEnums.foldl (genEnum gen.format) g
  match f.allMessages.foldlM (genMessage gen.format) g with
  | none => none
  | some g => some (g.P ["return proto".toList])

/-- The library method `protogen.Comments.String` of
google.golang.org/protobuf/compiler/protogen, which is not part of this
repository: an empty comment gives the empty text, otherwise one trailing newline
is removed and every line is written as "//", the line and a newline.  It is
only used as an instance of the parameter `format`. -/
def protogen.Comments.String (c : GoString) : GoString :=
  if c = [] then []
  else
    ((strings.TrimSuffix c "\n".toList).splitOn '\n').foldl
      (fun b line => b ++ "//".toList ++ line ++ "\n".toList) []

/-- Whether the references `fieldGoType` follows from a field are there: an enum
field has its enum, a message or group field has its message, and a map field has
an entry message with at least two fields, of which the first two satisfy the same
condition. -/
def Field.wellFormed : Field → Bool
  | .mk _ _ kind _ isMap en msg _ =>
    (kind != Kind.EnumKind || en.isSome) &&
    ((kind != Kind.MessageKind && kind != Kind.GroupKind) || msg.isSome) &&
    (!isMap ||
      match msg with
      | none => false
      | some (.mk _ _ _ fields) =>
        match fields with
        | key :: val :: _ => Field.wellFormed key && Field.wellFormed val
        | _ => false)

/-- Whether no name of a type that a field refers to contains a newline: the
name of its enum, the name of its message and, for a map field, the names that
the first two fields of the entry message refer to. -/
def Field.cleanRefs : Field → Bool
  | .mk _ _ _ _ isMap en msg _ =>
    (match en with
      | none => true
      | some e => !e.GoName.contains '\n') &&
    (match msg with
      | none => true
      | some (.mk n _ _ fields) =>
        !n.contains '\n' &&
        (!isMap ||
          match fields with
          | key :: val :: _ => Field.cleanRefs key && Field.cleanRefs val
          | _ => true))

/-- A proof device, not a function of the source: the line `genMessageField`
prints for a field for which `fieldGoType` has returned `goType`. -/
def fieldLine (format : GoString → GoString) (field : Field) (goType : GoString) : GoString :=
  "---@field ".toList ++ field.GoName ++ " ".toList ++ goType ++ " ".toList ++
    trailingComment.String
      (format (if field.Trailing ≠ [] then "@".toList ++ field.Trailing else field.Trailing))

/-! ## Theorems on `fieldGoType` -/

set_option smartUnfolding false in
/-- The defining equation of `fieldGoType`. -/
theorem fieldGoType_eq (n : GoString) (isWeak : Bool) (kind : Kind) (isList isMap : Bool)
    (en : Option Enum) (msg : Option Message) (t : GoString) :
    fieldGoType (.mk n isWeak kind isList isMap en msg t) =
      if isWeak then some []
      else
        match fieldGoType.base kind en msg with
        | none => none
        | some goType =>
          if isList then some (goType ++ "[]".toList)
          else if isMap then
            match msg with
            | none => none
            | some m =>
              match m.Fields with
              | key :: val :: _ =>
                (fieldGoType key).bind fun keyType =>
                  (fieldGoType val).bind fun valType => some (tableOf keyType valType)
              | _ => none
          else some goType := by
  cases isWeak
  · cases isList
    · cases isMap
      · rfl
      · cases msg with
        | none => rfl
        | some m =>
          cases m with
          | mk mn me ml fields =>
            cases fields with
            | nil => rfl
            | cons key tl =>
              cases tl with
              | nil => rfl
              | cons val rest =>
                rfl
    · rfl
  · rfl

/-- The result of `fieldGoType` on a field that is not weak and is neither a list
nor a map is the value of `goType` after the kind switch. -/
theorem fieldGoType_singular (f : Field) (hw : f.IsWeak = false) (hl : f.IsList = false)
    (hm : f.IsMap = false) : fieldGoType f = fieldGoType.base f.Kind f.Enum f.Message := by
  cases f with
  | mk n w k l m en msg t =>
    simp only [Field.IsWeak, Field.IsList, Field.IsMap] at hw hl hm
    subst hw hl hm
    simp only [Field.Kind, Field.Enum, Field.Message]
    rw [fieldGoType_eq]
    cases h : fieldGoType.base k en msg <;> simp

/-- The map case of `fieldGoType`, once the kind switch has succeeded. -/
theorem fieldGoType_map_eq (n : GoString) (k : Kind) (en : Option Enum) (msg : Message)
    (t goType : GoString) (hb : fieldGoType.base k en (some msg) = some goType) :
    fieldGoType (.mk n false k false true en (some msg) t) =
      match msg.Fields with
      | key :: val :: _ =>
        (fieldGoType key).bind fun keyType =>
          (fieldGoType val).bind fun valType => some (tableOf keyType valType)
      | _ => none := by
  cases msg with
  | mk mn me ml fields =>
    rw [fieldGoType_eq]
    simp only [hb, Message.Fields]
    cases fields with
    | nil => simp
    | cons key tl =>
      cases tl with
      | nil => simp
      | cons val _ =>
        cases hk : fieldGoType key <;> cases hv : fieldGoType val <;> simp

/-- C1: for every field that is not weak and is neither a list nor a map,
`fieldGoType` returns the table entry of its kind: bool gives "boolean"; each of
the ten integer kinds gives "integer"; float gives "float"; double gives
"number"; string gives "string"; bytes gives "any"; enum gives the name of the
referenced enum; message and group give the name of the referenced message. -/
theorem C1_fieldGoType_base_table (f : Field) (hw : f.IsWeak = false)
    (hl : f.IsList = false) (hm : f.IsMap = false) :
    (f.Kind = Kind.BoolKind → fieldGoType f = some "boolean".toList) ∧
    (f.Kind ∈ [Kind.Int32Kind, Kind.Sint32Kind, Kind.Sfixed32Kind, Kind.Uint32Kind,
        Kind.Fixed32Kind, Kind.Int64Kind, Kind.Sint64Kind, Kind.Sfixed64Kind,
        Kind.Uint64Kind, Kind.Fixed64Kind] → fieldGoType f = some "integer".toList) ∧
    (f.Kind = Kind.FloatKind → fieldGoType f = some "float".toList) ∧
    (f.Kind = Kind.DoubleKind → fieldGoType f = some "number".toList) ∧
    (f.Kind = Kind.StringKind → fieldGoType f = some "string".toList) ∧
    (f.Kind = Kind.BytesKind → fieldGoType f = some "any".toList) ∧
    (f.Kind = Kind.EnumKind → ∀ e : Enum, f.Enum = some e → fieldGoType f = some e.GoName) ∧
    (f.Kind = Kind.MessageKind ∨ f.Kind = Kind.GroupKind →
      ∀ m : Message, f.Message = some m → fieldGoType f = some m.GoName) := by
  rw [fieldGoType_singular f hw hl hm]
  refine ⟨?_, ?_, ?_, ?_, ?_, ?_, ?_, ?_⟩
  · intro hk; rw [hk]; rfl
  · intro hk
    simp only [List.mem_cons, List.mem_singleton, List.not_mem_nil, or_false] at hk
    rcases hk with hk | hk | hk | hk | hk | hk | hk | hk | hk | hk <;> rw [hk] <;> rfl
  · intro hk; rw [hk]; rfl
  · intro hk; rw [hk]; rfl
  · intro hk; rw [hk]; rfl
  · intro hk; rw [hk]; rfl
  · intro hk e he; rw [hk, he]; rfl
  · intro hk m hmsg
    rcases hk with hk | hk <;> rw [hk, hmsg] <;> rfl

/-- A singular enum field `tag` of type `Color` is mapped to "Color". -/
theorem C1_fieldGoType_base_table_witness :
    fieldGoType (Field.mk "tag".toList false Kind.EnumKind false false
        (some ⟨"Color".toList, [], []⟩) none []) = some "Color".toList :=
  (C1_fieldGoType_base_table
    (Field.mk "tag".toList false Kind.EnumKind false false (some ⟨"Color".toList, [], []⟩) none [])
    rfl rfl rfl).2.2.2.2.2.2.1 rfl ⟨"Color".toList, [], []⟩ rfl

/-- C2: for every map field that is not weak, whose entry message has the key
field `k` at index 0 and the value field `v` at index 1, `fieldGoType` returns
"table<" ++ fieldGoType(k) ++ "," ++ fieldGoType(v) ++ ">", the two types being
computed by `fieldGoType` itself (and it fails exactly when one of the two
fails); so a singular enum or message value puts the name of that enum or message
in the value position.  The kind switch runs before the map case: the
hypothesis `hk` says that it does not dereference a nil `field.Enum`, which holds
for a map field since its kind is message. -/
theorem C2_fieldGoType_map (f : Field) (m : Message) (k v : Field)
    (hw : f.IsWeak = false) (hl : f.IsList = false) (hmap : f.IsMap = true)
    (hk : f.Kind = Kind.EnumKind → f.Enum ≠ none)
    (hmsg : f.Message = some m) (h0 : m.Fields[0]? = some k) (h1 : m.Fields[1]? = some v) :
    fieldGoType f =
      ((fieldGoType k).bind fun keyType => (fieldGoType v).bind fun valType =>
        some ("table<".toList ++ keyType ++ ",".toList ++ valType ++ ">".toList)) ∧
    (∀ keyType, fieldGoType k = some keyType →
      v.IsWeak = false → v.IsList = false → v.IsMap = false →
      (∀ e : Enum, v.Kind = Kind.EnumKind → v.Enum = some e →
        fieldGoType f =
          some ("table<".toList ++ keyType ++ ",".toList ++ e.GoName ++ ">".toList)) ∧
      (∀ vm : Message, v.Kind = Kind.MessageKind ∨ v.Kind = Kind.GroupKind →
        v.Message = some vm →
        fieldGoType f =
          some ("table<".toList ++ keyType ++ ",".toList ++ vm.GoName ++ ">".toList))) := by
  have main : fieldGoType f =
      ((fieldGoType k).bind fun keyType => (fieldGoType v).bind fun valType =>
        some ("table<".toList ++ keyType ++ ",".toList ++ valType ++ ">".toList)) := by
    cases f with
    | mk n w kind l mp en msg t =>
      simp only [Field.IsWeak, Field.IsList, Field.IsMap, Field.Kind, Field.Enum,
        Field.Message] at hw hl hmap hk hmsg
      subst hw hl hmap hmsg
      have hb : ∃ goType, fieldGoType.base kind en (some m) = some goType := by
        cases kind <;> first
          | exact ⟨_, rfl⟩
          | (cases en with
             | none => exact absurd rfl (hk rfl)
             | some e => exact ⟨_, rfl⟩)
      obtain ⟨goType, hb⟩ := hb
      rw [fieldGoType_map_eq n kind en m t goType hb]
      cases hf : m.Fields with
      | nil => rw [hf] at h0; simp at h0
      | cons a tl =>
        cases tl with
        | nil => rw [hf] at h1; simp at h1
        | cons b rest =>
          rw [hf] at h0 h1
          simp only [List.getElem?_cons_zero, List.getElem?_cons_succ, Option.some.injEq] at h0 h1
          subst h0 h1
          rfl
  refine ⟨main, ?_⟩
  intro keyType hkt hvw hvl hvm
  rw [main, hkt, fieldGoType_singular v hvw hvl hvm]
  constructor
  · intro e hke hen
    rw [hke, hen]; rfl
  · intro vm hkm hvmsg
    rcases hkm with hkm | hkm <;> rw [hkm, hvmsg] <;> rfl

/-- The field `map<string, Color> labels` gets the type "table<string,Color>". -/
theorem C2_fieldGoType_map_witness :
    fieldGoType (Field.mk "Labels".toList false Kind.MessageKind false true none
      (some (Message.mk "LabelsEntry".toList true []
        [Field.mk "Key".toList false Kind.StringKind false false none none [],
         Field.mk "Value".toList false Kind.EnumKind false false
           (some ⟨"Color".toList, [], []⟩) none []])) [])
      = some ("table<".toList ++ "string".toList ++ ",".toList ++ "Color".toList ++ ">".toList) :=
  ((C2_fieldGoType_map
    (Field.mk "Labels".toList false Kind.MessageKind false true none
      (some (Message.mk "LabelsEntry".toList true []
        [Field.mk "Key".toList false Kind.StringKind false false none none [],
         Field.mk "Value".toList false Kind.EnumKind false false
           (some ⟨"Color".toList, [], []⟩) none []])) [])
    (Message.mk "LabelsEntry".toList true []
        [Field.mk "Key".toList false Kind.StringKind false false none none [],
         Field.mk "Value".toList false Kind.EnumKind false false
           (some ⟨"Color".toList, [], []⟩) none []])
    (Field.mk "Key".toList false Kind.StringKind false false none none [])
    (Field.mk "Value".toList false Kind.EnumKind false false (some ⟨"Color".toList, [], []⟩) none [])
    rfl rfl rfl (fun h => absurd h (by decide)) rfl rfl rfl).2
      "string".toList (by decide) rfl rfl rfl).1 ⟨"Color".toList, [], []⟩ rfl rfl

/-- C3: for every list field that is not weak, `fieldGoType` returns `T ++ "[]"`,
where `T` is what `fieldGoType` returns for the same field (same name, kind, enum
and message reference, comment) with singular cardinality; it fails exactly when
the singular field fails.  In particular "integer[]", `E[]` and `M[]` for a scalar,
an enum `E` and a message `M`. -/
theorem C3_fieldGoType_list (n : GoString) (kind : Kind) (isMap : Bool) (en : Option Enum)
    (msg : Option Message) (t : GoString) :
    fieldGoType (Field.mk n false kind true isMap en msg t) =
      (fieldGoType (Field.mk n false kind false false en msg t)).map
        fun T => T ++ "[]".toList := by
  rw [fieldGoType_eq, fieldGoType_eq]
  cases fieldGoType.base kind en msg <;> simp

/-- C4: for every weak field, whatever its kind, its list and map flags and its
references, `fieldGoType` returns the empty string: no "[]" is appended, no
"table<...>" is built, and nothing is dereferenced. -/
theorem C4_fieldGoType_weak (f : Field) (hw : f.IsWeak = true) : fieldGoType f = some [] := by
  cases f with
  | mk n w k l m en msg t =>
    simp only [Field.IsWeak] at hw
    subst hw
    rw [fieldGoType_eq]
    rfl

/-- A weak map field without entry message has the empty type. -/
theorem C4_fieldGoType_weak_witness :
    fieldGoType (Field.mk "W".toList true Kind.MessageKind false true none none []) = some [] :=
  C4_fieldGoType_weak (Field.mk "W".toList true Kind.MessageKind false true none none []) rfl

/-! ## Theorems on the file name -/

/-- The loop of `GenerateFile` started below index `n` only depends on the first
`n` bytes of the path, which it visits from the last one. -/
theorem scan_eq_scanRev (path : GoString) (n : Nat) (h : n ≤ path.length) :
    GenerateFile.scan path n h = scanRev (path.take n).reverse := by
  induction n with
  | zero => simp [GenerateFile.scan, scanRev]
  | succ i ih =>
    have hi : i < path.length := h
    have htake : (path.take (i + 1)).reverse = path[i] :: (path.take i).reverse := by
      rw [List.take_succ, List.getElem?_eq_getElem hi]
      simp
    rw [GenerateFile.scan, htake, scanRev, ih (Nat.le_of_succ_le h)]
    simp

/-- The file name in terms of the reversed path. -/
theorem filename_eq (path : GoString) :
    GenerateFile.filename path =
      if scanRev path.reverse = [] then path ++ ".lua".toList else scanRev path.reverse := by
  simp [GenerateFile.filename, scan_eq_scanRev]

/-- Bytes other than '.' and '/' are passed over by the scan. -/
theorem scanRev_skip (r rest : List Char) (hdot : '.' ∉ r) (hslash : '/' ∉ r) :
    scanRev (r ++ rest) = scanRev rest := by
  induction r with
  | nil => rfl
  | cons c r ih =>
    simp only [List.mem_cons, not_or] at hdot hslash
    have h1 : c ≠ '/' := fun h => hslash.1 h.symm
    have h2 : c ≠ '.' := fun h => hdot.1 h.symm
    simp only [List.cons_append, scanRev, h1, h2, if_false]
    exact ih hdot.2 hslash.2

/-- C5: for every string `x` and every extension `e` without '.' and without '/',
the file name `GenerateFile` computes for the path `x ++ "." ++ e` is
`x ++ ".lua"`: only the extension behind the last dot of the last path segment is
replaced. -/
theorem C5_filename_replaces_extension (x e : GoString) (hdot : '.' ∉ e) (hslash : '/' ∉ e) :
    GenerateFile.filename (x ++ ".".toList ++ e) = x ++ ".lua".toList := by
  have hs : scanRev (x ++ ".".toList ++ e).reverse = x ++ ".lua".toList := by
    have hr : (x ++ ".".toList ++ e).reverse = e.reverse ++ '.' :: x.reverse := by
      simp [String.toList]
    rw [hr, scanRev_skip e.reverse _ (by simpa using hdot) (by simpa using hslash)]
    simp [scanRev]
  rw [filename_eq, hs]
  have hne : x ++ ".lua".toList ≠ [] := by simp [String.toList]
  simp [hne]

/-- The three paths "a/b/c.proto", "x.y.z.proto" and "path/to/file.proto" give
"a/b/c.lua", "x.y.z.lua" and "path/to/file.lua". -/
theorem C5_filename_replaces_extension_witness :
    GenerateFile.filename ("a/b/c".toList ++ ".".toList ++ "proto".toList) =
        "a/b/c".toList ++ ".lua".toList ∧
    GenerateFile.filename ("x.y.z".toList ++ ".".toList ++ "proto".toList) =
        "x.y.z".toList ++ ".lua".toList ∧
    GenerateFile.filename ("path/to/file".toList ++ ".".toList ++ "proto".toList) =
        "path/to/file".toList ++ ".lua".toList :=
  ⟨C5_filename_replaces_extension "a/b/c".toList "proto".toList (by decide) (by decide),
   C5_filename_replaces_extension "x.y.z".toList "proto".toList (by decide) (by decide),
   C5_filename_replaces_extension "path/to/file".toList "proto".toList (by decide) (by decide)⟩

/-- C6: for every path whose last segment `seg` has no '.', the file name
`GenerateFile` computes is the whole path followed by ".lua", nothing being cut.
The path is either `seg` alone (no '/' at all, the empty path included) or
`dir ++ "/" ++ seg`, where `dir` is arbitrary and may contain dots. -/
theorem C6_filename_without_extension (dir seg : GoString) (hdot : '.' ∉ seg)
    (hslash : '/' ∉ seg) :
    GenerateFile.filename seg = seg ++ ".lua".toList ∧
    GenerateFile.filename (dir ++ "/".toList ++ seg) =
      dir ++ "/".toList ++ seg ++ ".lua".toList := by
  have h1 : scanRev seg.reverse = [] := by
    have := scanRev_skip seg.reverse [] (by simpa using hdot) (by simpa using hslash)
    simpa [scanRev] using this
  have h2 : scanRev (dir ++ "/".toList ++ seg).reverse = [] := by
    have hr : (dir ++ "/".toList ++ seg).reverse = seg.reverse ++ '/' :: dir.reverse := by
      simp [String.toList]
    rw [hr, scanRev_skip seg.reverse _ (by simpa using hdot) (by simpa using hslash)]
    simp [scanRev]
  constructor
  · rw [filename_eq, h1]; simp
  · rw [filename_eq, h2]; simp

/-- The paths "noext" and "a.b/c" give "noext.lua" and "a.b/c.lua". -/
theorem C6_filename_without_extension_witness :
    GenerateFile.filename "noext".toList = "noext".toList ++ ".lua".toList ∧
    GenerateFile.filename ("a.b".toList ++ "/".toList ++ "c".toList) =
      "a.b".toList ++ "/".toList ++ "c".toList ++ ".lua".toList ∧
    GenerateFile.filename [] = [] ++ ".lua".toList ∧
    GenerateFile.filename ("a/b".toList ++ "/".toList ++ "noext".toList) =
      "a/b".toList ++ "/".toList ++ "noext".toList ++ ".lua".toList :=
  ⟨(C6_filename_without_extension [] "noext".toList (by decide) (by decide)).1,
   (C6_filename_without_extension "a.b".toList "c".toList (by decide) (by decide)).2,
   (C6_filename_without_extension [] [] (by decide) (by decide)).1,
   (C6_filename_without_extension "a/b".toList "noext".toList (by decide) (by decide)).2⟩

/-! ## Theorems on `trailingComment.String` -/

/-- The text `s` contains the one-byte string "\n" exactly when the byte '\n'
is in `s`. -/
theorem contains_newline_iff (s : GoString) :
    strings.Contains s "\n".toList = true ↔ '\n' ∈ s := by
  induction s with
  | nil => simp [strings.Contains, String.toList, List.isPrefixOf]
  | cons c s ih =>
    have hhead : List.isPrefixOf "\n".toList (c :: s) = true ↔ '\n' = c := by
      simp [String.toList, List.isPrefixOf]
    have hstep : strings.Contains (c :: s) "\n".toList =
        (List.isPrefixOf "\n".toList (c :: s) || strings.Contains s "\n".toList) := by
      simp only [strings.Contains, List.tails, List.any_cons]
    rw [hstep, Bool.or_eq_true, hhead, ih, List.mem_cons]

/-- One trailing newline is removed by `strings.TrimSuffix`. -/
theorem trimSuffix_append_newline (s : GoString) :
    strings.TrimSuffix (s ++ "\n".toList) "\n".toList = s := by
  simp [strings.TrimSuffix, String.toList, List.isSuffixOf, List.isPrefixOf]

/-- A text that does not end with a newline is left as it is by
`strings.TrimSuffix`. -/
theorem trimSuffix_of_getLast (s : GoString) (h : s.getLast? ≠ some '\n') :
    strings.TrimSuffix s "\n".toList = s := by
  have hsuf : List.isSuffixOf "\n".toList s = false := by
    cases hr : s.reverse with
    | nil => simp [List.isSuffixOf, hr, String.toList, List.isPrefixOf]
    | cons c r =>
      have hlast : s.getLast? = some c := by
        rw [List.getLast?_eq_head?_reverse, hr]; rfl
      have hc : c ≠ '\n' := fun hc => h (by rw [hlast, hc])
      simp [List.isSuffixOf, hr, String.toList, List.isPrefixOf, Ne.symm hc]
  unfold strings.TrimSuffix
  rw [hsuf]
  simp

/-- A text without newline does not end with a newline. -/
theorem getLast_of_not_mem (s : GoString) (h : '\n' ∉ s) : s.getLast? ≠ some '\n' := by
  intro hl
  exact h (List.mem_of_getLast?_eq_some hl)

/-- C7, as stated, fails: on the formatted comment text "// hello" the method
`trailingComment.String` does not return "hello". -/
theorem C7_hello_counterexample :
    trailingComment.String "// hello".toList ≠ "hello".toList := by
  decide

/-- C7, amended: on the formatted comment text "// hello" the method
`trailingComment.String` returns " hello": the two bytes "//" are removed and
the space that follows them is kept. -/
theorem C7_hello_keeps_space :
    trailingComment.String "// hello".toList = " hello".toList := by
  decide

/-- C8: a comment text that still contains a newline after one trailing newline
has been removed is dropped: `trailingComment.String` returns the empty string.
The text is either `s ++ "\n"` (the removal leaves `s`) or a text `s` that does
not end with a newline (the removal leaves it as it is). -/
theorem C8_multiline_dropped (s : GoString) (hnl : '\n' ∈ s) :
    trailingComment.String (s ++ "\n".toList) = [] ∧
    (s.getLast? ≠ some '\n' → trailingComment.String s = []) := by
  have hc : strings.Contains s "\n".toList = true := (contains_newline_iff s).2 hnl
  constructor
  · simp only [trailingComment.String, trimSuffix_append_newline, hc, if_true]
  · intro hlast
    simp only [trailingComment.String, trimSuffix_of_getLast s hlast, hc, if_true]

/-- The two-line comment "// line1\n// line2", with or without a final newline,
gives the empty string. -/
theorem C8_multiline_dropped_witness :
    trailingComment.String ("// line1\n// line2".toList ++ "\n".toList) = [] ∧
    trailingComment.String "// line1\n// line2".toList = [] :=
  ⟨(C8_multiline_dropped "// line1\n// line2".toList (by decide)).1,
   (C8_multiline_dropped "// line1\n// line2".toList (by decide)).2 (by decide)⟩

/-- C9: for every text `s` without newline and of length above 2,
`trailingComment.String` applied to `s`, and applied to `s` followed by one
newline, returns `s` without its first two bytes, the rest unchanged. -/
theorem C9_marker_removed (s : GoString) (hnl : '\n' ∉ s) (hlen : 2 < s.length) :
    trailingComment.String s = s.drop 2 ∧
    trailingComment.String (s ++ "\n".toList) = s.drop 2 := by
  have hc : strings.Contains s "\n".toList = false := by
    cases h : strings.Contains s "\n".toList with
    | false => rfl
    | true => exact absurd ((contains_newline_iff s).1 h) hnl
  have hgt : s.length > 2 := hlen
  constructor
  · simp only [trailingComment.String, trimSuffix_of_getLast s (getLast_of_not_mem s hnl), hc,
      hgt, if_true]
    simp
  · simp only [trailingComment.String, trimSuffix_append_newline, hc, hgt, if_true]
    simp

/-- The text "//x" gives "x", with and without a final newline. -/
theorem C9_marker_removed_witness :
    trailingComment.String "//x".toList = "//x".toList.drop 2 ∧
    trailingComment.String ("//x".toList ++ "\n".toList) = "//x".toList.drop 2 :=
  C9_marker_removed "//x".toList (by decide) (by decide)

/-- C10: for every text `s` without newline and of length at most 2,
`trailingComment.String` returns `s` unchanged. -/
theorem C10_short_unchanged (s : GoString) (hnl : '\n' ∉ s) (hlen : s.length ≤ 2) :
    trailingComment.String s = s := by
  have hc : strings.Contains s "\n".toList = false := by
    cases h : strings.Contains s "\n".toList with
    | false => rfl
    | true => exact absurd ((contains_newline_iff s).1 h) hnl
  have hgt : ¬ s.length > 2 := Nat.not_lt.2 hlen
  simp only [trailingComment.String, trimSuffix_of_getLast s (getLast_of_not_mem s hnl), hc, hgt,
    if_false]
  simp

/-- The empty text gives the empty text and "//" gives "//". -/
theorem C10_short_unchanged_witness :
    trailingComment.String [] = [] ∧ trailingComment.String "//".toList = "//".toList :=
  ⟨C10_short_unchanged [] (by decide) (by decide),
   C10_short_unchanged "//".toList (by decide) (by decide)⟩

set_option smartUnfolding false in
/-- The defining equation of `Field.wellFormed`. -/
theorem wellFormed_eq (n : GoString) (isWeak : Bool) (kind : Kind) (isList isMap : Bool)
    (en : Option Enum) (msg : Option Message) (t : GoString) :
    Field.wellFormed (.mk n isWeak kind isList isMap en msg t) =
      ((kind != Kind.EnumKind || en.isSome) &&
      ((kind != Kind.MessageKind && kind != Kind.GroupKind) || msg.isSome) &&
      (!isMap ||
        match msg with
        | none => false
        | some m =>
          match m.Fields with
          | key :: val :: _ => Field.wellFormed key && Field.wellFormed val
          | _ => false)) := by
  cases msg with
  | none => rfl
  | some m =>
    cases m with
    | mk mn me ml fields =>
      cases fields with
      | nil => rfl
      | cons key tl =>
        cases tl with
        | nil => rfl
        | cons val rest => rfl

set_option smartUnfolding false in
/-- The defining equation of `Field.cleanRefs`. -/
theorem cleanRefs_eq (n : GoString) (isWeak : Bool) (kind : Kind) (isList isMap : Bool)
    (en : Option Enum) (msg : Option Message) (t : GoString) :
    Field.cleanRefs (.mk n isWeak kind isList isMap en msg t) =
      ((match en with
        | none => true
        | some e => !e.GoName.contains '\n') &&
      (match msg with
        | none => true
        | some m =>
          !m.GoName.contains '\n' &&
          (!isMap ||
            match m.Fields with
            | key :: val :: _ => Field.cleanRefs key && Field.cleanRefs val
            | _ => true))) := by
  cases msg with
  | none => rfl
  | some m =>
    cases m with
    | mk mn me ml fields =>
      cases fields with
      | nil => rfl
      | cons key tl =>
        cases tl with
        | nil => rfl
        | cons val rest => rfl

/-! ## Theorems on comments, totality and emptiness -/

/-- A text that `strings.Contains` finds no "\n" in has no newline byte. -/
theorem not_mem_of_contains_false (s : GoString)
    (h : strings.Contains s "\n".toList = false) : '\n' ∉ s := by
  intro hmem
  rw [(contains_newline_iff s).2 hmem] at h
  exact Bool.noConfusion h

/-- The result of `trailingComment.String` has no newline. -/
theorem trailingComment_no_newline (formatted : GoString) :
    '\n' ∉ trailingComment.String formatted := by
  cases hc : strings.Contains (strings.TrimSuffix formatted "\n".toList) "\n".toList with
  | true =>
    have hr : trailingComment.String formatted = [] := by
      simp only [trailingComment.String, hc, if_true]
    rw [hr]
    exact List.not_mem_nil _
  | false =>
    have hs := not_mem_of_contains_false _ hc
    by_cases hlen : (strings.TrimSuffix formatted "\n".toList).length > 2
    · have hr : trailingComment.String formatted =
          (strings.TrimSuffix formatted "\n".toList).drop 2 := by
        simp only [trailingComment.String, hc, hlen, if_true]
        simp
      rw [hr]
      exact fun hmem => hs (List.mem_of_mem_drop hmem)
    · have hr : trailingComment.String formatted = strings.TrimSuffix formatted "\n".toList := by
        simp only [trailingComment.String, hc, hlen, if_false]
        simp
      rw [hr]
      exact hs

/-- C11: for every comment text, the string `trailingComment.String` returns
contains no newline: it is a single line or the empty string. -/
theorem C11_single_line (formatted : GoString) :
    '\n' ∉ trailingComment.String formatted :=
  trailingComment_no_newline formatted

/-- The kind switch succeeds on a well-formed field. -/
theorem base_of_wellFormed (kind : Kind) (en : Option Enum) (msg : Option Message)
    (h1 : (kind != Kind.EnumKind || en.isSome) = true)
    (h2 : ((kind != Kind.MessageKind && kind != Kind.GroupKind) || msg.isSome) = true) :
    ∃ goType, fieldGoType.base kind en msg = some goType := by
  cases kind <;> first
    | exact ⟨_, rfl⟩
    | (cases en with
       | none => simp at h1
       | some e => exact ⟨_, rfl⟩)
    | (cases msg with
       | none => simp at h2
       | some m => exact ⟨_, rfl⟩)

/-- On a well-formed field `fieldGoType` returns a string; by induction on the
size of the descriptor tree. -/
theorem fieldGoType_wellFormed_aux (k : Nat) :
    ∀ f : Field, sizeOf f ≤ k → f.wellFormed = true → ∃ T, fieldGoType f = some T := by
  induction k with
  | zero =>
    intro f hs
    cases f
    simp at hs
  | succ k ih =>
    intro f hs hwf
    cases f with
    | mk n w kind l mp en msg t =>
      rw [wellFormed_eq] at hwf
      simp only [Bool.and_eq_true] at hwf
      obtain ⟨⟨h1, h2⟩, h3⟩ := hwf
      obtain ⟨goType, hb⟩ := base_of_wellFormed kind en msg h1 h2
      rw [fieldGoType_eq, hb]
      cases w
      · cases l
        · cases mp
          · exact ⟨_, rfl⟩
          · cases msg with
            | none => simp at h3
            | some m =>
              cases m with
              | mk mn me ml fields =>
                cases fields with
                | nil => simp [Message.Fields] at h3
                | cons key tl =>
                  cases tl with
                  | nil => simp [Message.Fields] at h3
                  | cons val rest =>
                    simp only [Message.Fields, Bool.not_true, Bool.false_or,
                      Bool.and_eq_true] at h3
                    simp only [Field.mk.sizeOf_spec, Option.some.sizeOf_spec,
                      Message.mk.sizeOf_spec, List.cons.sizeOf_spec] at hs
                    obtain ⟨kt, hkt⟩ := ih key (by omega) h3.1
                    obtain ⟨vt, hvt⟩ := ih val (by omega) h3.2
                    exact ⟨tableOf kt vt, by simp [Message.Fields, hkt, hvt]⟩
        · exact ⟨_, rfl⟩
      · exact ⟨_, rfl⟩

/-- On a well-formed field `fieldGoType` returns a string. -/
theorem fieldGoType_wellFormed (f : Field) (h : f.wellFormed = true) :
    ∃ T, fieldGoType f = some T :=
  fieldGoType_wellFormed_aux (sizeOf f) f (Nat.le_refl _) h

/-- C17: `fieldGoType` is total on well-formed input.  For every field such that
an enum field has its enum, a message or group field has its message and a map
field has an entry message with at least two fields, the first two being
well-formed in turn, `fieldGoType` returns a string (it is defined by structural
recursion, so it terminates, and the result is not a panic); when the map case
is reached, the entry fields at index 0 and 1 exist. -/
theorem C17_fieldGoType_total (f : Field) (h : f.wellFormed = true) :
    (∃ T, fieldGoType f = some T) ∧
    (f.IsMap = true →
      ∃ m key val, f.Message = some m ∧ m.Fields[0]? = some key ∧ m.Fields[1]? = some val) := by
  refine ⟨fieldGoType_wellFormed f h, ?_⟩
  intro hmap
  cases f with
  | mk n w kind l mp en msg t =>
    simp only [Field.IsMap] at hmap
    subst hmap
    rw [wellFormed_eq] at h
    simp only [Bool.and_eq_true] at h
    have h3 := h.2
    cases msg with
    | none => simp at h3
    | some m =>
      cases hf : m.Fields with
      | nil => simp [hf] at h3
      | cons key tl =>
        cases tl with
        | nil => simp [hf] at h3
        | cons val rest => exact ⟨m, key, val, rfl, by simp [hf], by simp [hf]⟩

/-- The field `map<string, Color> labels` is well-formed and gets a type. -/
theorem C17_fieldGoType_total_witness :
    (∃ T, fieldGoType (Field.mk "Labels".toList false Kind.MessageKind false true none
      (some (Message.mk "LabelsEntry".toList true []
        [Field.mk "Key".toList false Kind.StringKind false false none none [],
         Field.mk "Value".toList false Kind.EnumKind false false
           (some ⟨"Color".toList, [], []⟩) none []])) []) = some T) :=
  (C17_fieldGoType_total
    (Field.mk "Labels".toList false Kind.MessageKind false true none
      (some (Message.mk "LabelsEntry".toList true []
        [Field.mk "Key".toList false Kind.StringKind false false none none [],
         Field.mk "Value".toList false Kind.EnumKind false false
           (some ⟨"Color".toList, [], []⟩) none []])) [])
    (by decide)).1

/-- The value of `goType` after the kind switch is not empty when the names of
the referenced enum and message are not empty. -/
theorem base_ne_nil (kind : Kind) (en : Option Enum) (msg : Option Message) (goType : GoString)
    (hen : ∀ e, en = some e → e.GoName ≠ []) (hmsg : ∀ m, msg = some m → m.GoName ≠ [])
    (hb : fieldGoType.base kind en msg = some goType) : goType ≠ [] := by
  cases kind <;> simp only [fieldGoType.base] at hb <;> first
    | (cases hb; decide)
    | (cases en with
       | none => simp at hb
       | some e =>
         simp only [Option.map_some', Option.some.injEq] at hb
         rw [← hb]; exact hen e rfl)
    | (cases msg with
       | none => simp at hb
       | some m =>
         simp only [Option.map_some', Option.some.injEq] at hb
         rw [← hb]; exact hmsg m rfl)

/-- C19: for every well-formed field whose referenced enum and message have
non-empty names, `fieldGoType` returns a string, and that string is empty if and
only if the field is weak: a field that is not weak always gets a type, whatever
its kind and cardinality.  (Only the names the field refers to directly are
needed; a map type is never empty.) -/
theorem C19_empty_iff_weak (f : Field) (hwf : f.wellFormed = true)
    (hen : ∀ e, f.Enum = some e → e.GoName ≠ [])
    (hmsg : ∀ m, f.Message = some m → m.GoName ≠ []) :
    ∃ T, fieldGoType f = some T ∧ (T = [] ↔ f.IsWeak = true) := by
  obtain ⟨T, hT⟩ := fieldGoType_wellFormed f hwf
  refine ⟨T, hT, ?_⟩
  cases f with
  | mk n w kind l mp en msg t =>
    simp only [Field.Enum, Field.Message, Field.IsWeak] at hen hmsg ⊢
    rw [fieldGoType_eq] at hT
    cases w with
    | true =>
      simp at hT
      simp [← hT]
    | false =>
      simp only [Bool.false_eq_true, iff_false]
      cases hb : fieldGoType.base kind en msg with
      | none => simp [hb] at hT
      | some goType =>
        have hne := base_ne_nil kind en msg goType hen hmsg hb
        rw [hb] at hT
        cases l with
        | true =>
          simp at hT
          rw [← hT]; simp [hne]
        | false =>
          cases mp with
          | false =>
            simp at hT
            rw [← hT]; exact hne
          | true =>
            simp only [Bool.false_eq_true, if_false, if_true] at hT
            cases msg with
            | none => simp at hT
            | some m =>
              cases hf : m.Fields with
              | nil => simp [hf] at hT
              | cons key tl =>
                cases tl with
                | nil => simp [hf] at hT
                | cons val rest =>
                  simp only [hf] at hT
                  cases hk : fieldGoType key with
                  | none => simp [hk] at hT
                  | some kt =>
                    cases hv : fieldGoType val with
                    | none => simp [hk, hv] at hT
                    | some vt =>
                      simp only [hk, hv, Option.some_bind, Option.some.injEq] at hT
                      rw [← hT]
                      simp [tableOf, String.toList]

/-- A non-weak list of strings has a non-empty type; a weak field has the empty
type. -/
theorem C19_empty_iff_weak_witness :
    (∃ T, fieldGoType (Field.mk "Tags".toList false Kind.StringKind true false none none [])
        = some T ∧
      (T = [] ↔
        (Field.mk "Tags".toList false Kind.StringKind true false none none []).IsWeak = true)) ∧
    (∃ T, fieldGoType (Field.mk "W".toList true Kind.StringKind false false none none [])
        = some T ∧
      (T = [] ↔
        (Field.mk "W".toList true Kind.StringKind false false none none []).IsWeak = true)) :=
  ⟨C19_empty_iff_weak (Field.mk "Tags".toList false Kind.StringKind true false none none [])
      (by decide) (fun e h => by cases h) (fun m h => by cases h),
   C19_empty_iff_weak (Field.mk "W".toList true Kind.StringKind false false none none [])
      (by decide) (fun e h => by cases h) (fun m h => by cases h)⟩

/-! ## Idempotence of the file name -/

/-- The file name of a path `x ++ "." ++ e`, where `e` has no '.' and no '/'. -/
theorem filename_dot_ext (x e : GoString) (hdot : '.' ∉ e) (hslash : '/' ∉ e) :
    GenerateFile.filename (x ++ ".".toList ++ e) = x ++ ".lua".toList := by
  have hr : (x ++ ".".toList ++ e).reverse = e.reverse ++ '.' :: x.reverse := by
    simp [String.toList]
  have hs : scanRev (x ++ ".".toList ++ e).reverse = x ++ ".lua".toList := by
    rw [hr, scanRev_skip e.reverse _ (by simpa using hdot) (by simpa using hslash)]
    simp [scanRev]
  have hne : x ++ ".lua".toList ≠ [] := by simp [String.toList]
  rw [filename_eq, hs]
  simp [hne]

/-- The scan either leaves `filename` empty or sets it to a text ending in
".lua". -/
theorem scanRev_form (r : List Char) :
    scanRev r = [] ∨ ∃ q, scanRev r = q ++ ".lua".toList := by
  induction r with
  | nil => exact Or.inl rfl
  | cons c r ih =>
    by_cases h1 : c = '/'
    · left; simp [scanRev, h1]
    · by_cases h2 : c = '.'
      · right; exact ⟨r.reverse, by simp [scanRev, h2]⟩
      · simpa [scanRev, h1, h2] using ih

/-- Every file name is some text followed by ".lua". -/
theorem filename_form (path : GoString) :
    ∃ q, GenerateFile.filename path = q ++ ".lua".toList := by
  rw [filename_eq]
  rcases scanRev_form path.reverse with h | ⟨q, h⟩
  · exact ⟨path, by simp [h]⟩
  · by_cases hnil : scanRev path.reverse = []
    · exact ⟨path, by simp [hnil]⟩
    · exact ⟨q, by simp [hnil, h]⟩

/-- C18: the computation of the output path in `GenerateFile` is idempotent: for
every path, applying it to its own result gives that result again; every result
ends with ".lua"; and a path that already ends with ".lua" is returned
unchanged. -/
theorem C18_filename_idempotent (path : GoString) :
    GenerateFile.filename (GenerateFile.filename path) = GenerateFile.filename path ∧
    (∃ q, GenerateFile.filename path = q ++ ".lua".toList) ∧
    GenerateFile.filename (path ++ ".lua".toList) = path ++ ".lua".toList := by
  have hlua : ∀ x : GoString,
      GenerateFile.filename (x ++ ".lua".toList) = x ++ ".lua".toList := by
    intro x
    have := filename_dot_ext x "lua".toList (by decide) (by decide)
    simpa [String.toList] using this
  obtain ⟨q, hq⟩ := filename_form path
  refine ⟨?_, ⟨q, hq⟩, hlua path⟩
  rw [hq]
  exact hlua q

/-! ## Theorems on the generated document -/

/-- A loop that prints one line per element adds the lines in the order of the
elements. -/
theorem foldl_P {α : Type} (line : α → List GoString) (xs : List α) (g : GeneratedFile) :
    xs.foldl (fun g x => GeneratedFile.P g (line x)) g =
      g ++ xs.map fun x => (line x).flatten := by
  induction xs generalizing g with
  | nil => simp
  | cons x xs ih =>
    rw [List.foldl_cons, ih]
    simp [GeneratedFile.P]

/-- The lines `genEnum` adds to the buffer, written out. -/
theorem genEnum_eq (format : GoString → GoString) (g : GeneratedFile) (e : Enum) :
    genEnum format g e =
      g ++ ["---@class ".toList ++ e.GoName ++ " @".toList ++
              trailingComment.String (format e.Leading)] ++
        (e.Values.map fun value =>
          "---@field public ".toList ++ value.Name ++ " integer|string @".toList ++
            formatNumber value.Number ++ " ".toList ++
            trailingComment.String (format value.Trailing)) ++
        [[], "---@type ".toList ++ e.GoName, "proto.".toList ++ e.GoName ++ " = \x7b".toList] ++
        (e.Values.map fun value =>
          "\t".toList ++ value.Name ++ " = ".toList ++ formatNumber value.Number ++ ",".toList) ++
        ["\x7d".toList, [], "---@type ".toList ++ e.GoName,
          "proto.".toList ++ e.GoName ++ "Str = \x7b".toList] ++
        (e.Values.map fun value =>
          "\t".toList ++ value.Name ++ " = \"".toList ++ value.Name ++ "\",".toList) ++
        ["\x7d".toList, []] := by
  simp only [genEnum, foldl_P]
  simp [GeneratedFile.P]

/-- The lines of `genEnum` do not depend on what was printed before. -/
theorem genEnum_append (format : GoString → GoString) (g : GeneratedFile) (e : Enum) :
    genEnum format g e = g ++ genEnum format [] e := by
  rw [genEnum_eq format g, genEnum_eq format []]
  simp

/-- C13: for every enum, `genEnum` prints the class line, one annotation line per
value, and then two tables: `proto.<Name>` and `proto.<Name>Str`.  Both tables have
one entry per value of the enum, in declaration order, with the name of the value
as key; the entry of the first table binds the name to the number of the value,
that of the second binds it to the name itself between double quotes. -/
theorem C13_enum_tables (format : GoString → GoString) (g : GeneratedFile) (e : Enum) :
    ∃ annotations numbers names : List GoString,
      genEnum format g e =
        g ++ annotations ++
          [[], "---@type ".toList ++ e.GoName, "proto.".toList ++ e.GoName ++ " = \x7b".toList] ++
          numbers ++
          ["\x7d".toList, [], "---@type ".toList ++ e.GoName,
            "proto.".toList ++ e.GoName ++ "Str = \x7b".toList] ++
          names ++ ["\x7d".toList, []] ∧
      annotations.length = e.Values.length + 1 ∧
      numbers.length = e.Values.length ∧ names.length = e.Values.length ∧
      ∀ (i : Nat) (value : EnumValue), e.Values[i]? = some value →
        numbers[i]? = some ("\t".toList ++ value.Name ++ " = ".toList ++
          formatNumber value.Number ++ ",".toList) ∧
        names[i]? = some ("\t".toList ++ value.Name ++ " = \"".toList ++ value.Name ++
          "\",".toList) := by
  refine ⟨["---@class ".toList ++ e.GoName ++ " @".toList ++
              trailingComment.String (format e.Leading)] ++
        (e.Values.map fun value =>
          "---@field public ".toList ++ value.Name ++ " integer|string @".toList ++
            formatNumber value.Number ++ " ".toList ++
            trailingComment.String (format value.Trailing)),
      e.Values.map fun value =>
          "\t".toList ++ value.Name ++ " = ".toList ++ formatNumber value.Number ++ ",".toList,
      e.Values.map fun value =>
          "\t".toList ++ value.Name ++ " = \"".toList ++ value.Name ++ "\",".toList,
      ?_, ?_, ?_, ?_, ?_⟩
  · rw [genEnum_eq]
    simp only [List.append_assoc]
  · simp [Nat.add_comm]
  · simp
  · simp
  · intro i value hi
    simp [List.getElem?_map, hi]

/-- The function `genMessageField` adds one line, or panics with `fieldGoType`. -/
theorem genMessageField_eq (format : GoString → GoString) (g : GeneratedFile) (field : Field) :
    genMessageField format g field =
      (fieldGoType field).map fun goType => g ++ [fieldLine format field goType] := by
  unfold genMessageField
  cases fieldGoType field with
  | none => rfl
  | some goType => simp [GeneratedFile.P, fieldLine]

/-- The loop over the fields does not depend on what was printed before. -/
theorem foldlM_genMessageField_append (format : GoString → GoString) (fields : List Field)
    (g : GeneratedFile) :
    fields.foldlM (genMessageField format) g =
      (fields.foldlM (genMessageField format) []).map fun ls => g ++ ls := by
  induction fields generalizing g with
  | nil => simp
  | cons field fields ih =>
    rw [List.foldlM_cons, List.foldlM_cons, genMessageField_eq, genMessageField_eq]
    cases fieldGoType field with
    | none => rfl
    | some goType =>
      simp only [Option.map_some', Option.bind_eq_bind, Option.some_bind, List.nil_append]
      rw [ih (g ++ [fieldLine format field goType]), ih [fieldLine format field goType]]
      cases List.foldlM (genMessageField format) [] fields <;> simp

/-- The loop over the fields, when `fieldGoType` returns `types` for them. -/
theorem foldlM_genMessageField_types (format : GoString → GoString) (fields : List Field)
    (types : List GoString) (g : GeneratedFile)
    (ht : fields.map fieldGoType = types.map some) :
    fields.foldlM (genMessageField format) g =
      some (g ++ List.zipWith (fieldLine format) fields types) := by
  induction fields generalizing types g with
  | nil => simp
  | cons field fields ih =>
    cases types with
    | nil => simp at ht
    | cons T types =>
      simp only [List.map_cons, List.cons.injEq] at ht
      rw [List.foldlM_cons, genMessageField_eq, ht.1]
      simp only [Option.map_some', Option.bind_eq_bind, Option.some_bind]
      rw [ih types _ ht.2]
      simp

/-- The fields of a message all get a type when they are well-formed. -/
theorem types_of_wellFormed (fields : List Field)
    (hwf : ∀ field ∈ fields, field.wellFormed = true) :
    ∃ types : List GoString, fields.map fieldGoType = types.map some := by
  induction fields with
  | nil => exact ⟨[], rfl⟩
  | cons field fields ih =>
    obtain ⟨T, hT⟩ := fieldGoType_wellFormed field (hwf field (List.mem_cons_self _ _))
    obtain ⟨types, ht⟩ := ih fun x hx => hwf x (List.mem_cons_of_mem _ hx)
    exact ⟨T :: types, by simp [hT, ht]⟩

/-- The lines of `genMessage` do not depend on what was printed before. -/
theorem genMessage_append (format : GoString → GoString) (g : GeneratedFile) (m : Message) :
    genMessage format g m = (genMessage format [] m).map fun ls => g ++ ls := by
  unfold genMessage genMessageFields
  cases m.IsMapEntry with
  | true => simp
  | false =>
    simp only [Bool.false_eq_true, if_false]
    rw [foldlM_genMessageField_append format m.Fields (GeneratedFile.P g _),
      foldlM_genMessageField_append format m.Fields (GeneratedFile.P [] _)]
    cases List.foldlM (genMessageField format) [] m.Fields <;> simp [GeneratedFile.P]

/-- The lines `genMessage` adds for a message that is not a map entry, when
`fieldGoType` returns `types` for its fields. -/
theorem genMessage_eq (format : GoString → GoString) (g : GeneratedFile) (m : Message)
    (types : List GoString) (hm : m.IsMapEntry = false)
    (ht : m.Fields.map fieldGoType = types.map some) :
    genMessage format g m =
      some (g ++ ["---@class ".toList ++ m.GoName ++ " @".toList ++
                    trailingComment.String (format m.Leading)] ++
        List.zipWith (fieldLine format) m.Fields types ++
        [[], "proto.".toList ++ m.GoName ++ " = \"".toList ++ m.GoName ++ "\"".toList]) := by
  simp only [genMessage, genMessageFields, hm, Bool.false_eq_true, if_false,
    foldlM_genMessageField_types format m.Fields types _ ht]
  simp [GeneratedFile.P]

/-- The loop over the enums adds their blocks one after the other. -/
theorem foldl_genEnum (format : GoString → GoString) (enums : List Enum) (g : GeneratedFile) :
    enums.foldl (genEnum format) g = g ++ (enums.map (genEnum format [])).flatten := by
  induction enums generalizing g with
  | nil => simp
  | cons e enums ih =>
    rw [List.foldl_cons, ih, genEnum_append format g e]
    simp

/-- The loop over the messages does not depend on what was printed before. -/
theorem foldlM_genMessage_append (format : GoString → GoString) (msgs : List Message)
    (g : GeneratedFile) :
    msgs.foldlM (genMessage format) g =
      (msgs.foldlM (genMessage format) []).map fun ls => g ++ ls := by
  induction msgs generalizing g with
  | nil => simp
  | cons m msgs ih =>
    rw [List.foldlM_cons, List.foldlM_cons, genMessage_append format g m]
    cases genMessage format [] m with
    | none => rfl
    | some block =>
      simp only [Option.map_some', Option.bind_eq_bind, Option.some_bind]
      rw [ih (g ++ block), ih block]
      cases List.foldlM (genMessage format) [] msgs <;> simp

/-- The loop over the messages adds their blocks one after the other. -/
theorem foldlM_genMessage_blocks (format : GoString → GoString) (msgs : List Message)
    (blocks : List GeneratedFile) (g : GeneratedFile)
    (hb : msgs.map (genMessage format []) = blocks.map some) :
    msgs.foldlM (genMessage format) g = some (g ++ blocks.flatten) := by
  induction msgs generalizing blocks g with
  | nil =>
    cases blocks with
    | nil => simp
    | cons b bs => simp at hb
  | cons m msgs ih =>
    cases blocks with
    | nil => simp at hb
    | cons b bs =>
      simp only [List.map_cons, List.cons.injEq] at hb
      rw [List.foldlM_cons, genMessage_append format g m, hb.1]
      simp only [Option.map_some', Option.bind_eq_bind, Option.some_bind]
      rw [ih bs _ hb.2]
      simp

/-- C16: for every message that is not a map entry, `genMessage` prints exactly:
the class line with the name of the message and its extracted leading comment;
then one field line per field, in declaration order, with the Go name of the
field, its `fieldGoType` and its extracted trailing comment (`String` is applied
to the comment with "@" in front when the comment is not empty); then one
empty line; then the one statement `proto.<Name> = "<Name>"`.  Here `types` are
the results of `fieldGoType` on the fields, which exist when the fields are
well-formed. -/
theorem C16_genMessage_block (format : GoString → GoString) (g : GeneratedFile) (m : Message)
    (hm : m.IsMapEntry = false) :
    (∀ types : List GoString, m.Fields.map fieldGoType = types.map some →
      genMessage format g m =
        some (g ++
          ["---@class ".toList ++ m.GoName ++ " @".toList ++
            trailingComment.String (format m.Leading)] ++
          List.zipWith (fun field goType =>
            "---@field ".toList ++ field.GoName ++ " ".toList ++ goType ++ " ".toList ++
              trailingComment.String (format
                (if field.Trailing ≠ [] then "@".toList ++ field.Trailing else field.Trailing)))
            m.Fields types ++
          [[], "proto.".toList ++ m.GoName ++ " = \"".toList ++ m.GoName ++ "\"".toList]) ∧
      types.length = m.Fields.length) ∧
    ((∀ field ∈ m.Fields, field.wellFormed = true) →
      ∃ types : List GoString, m.Fields.map fieldGoType = types.map some) := by
  refine ⟨?_, types_of_wellFormed m.Fields⟩
  intro types ht
  refine ⟨genMessage_eq format g m types hm ht, ?_⟩
  have := congrArg List.length ht
  simpa using this.symm

/-- The message `Point` with the fields `x` and `y` of kind int32 and `tag` of enum
`Color`, where `x` has the trailing comment " the x": four annotation lines, an
empty line and the registration. -/
theorem C16_genMessage_block_witness :
    genMessage protogen.Comments.String [] (Message.mk "Point".toList false " a point\n".toList
      [Field.mk "X".toList false Kind.Int32Kind false false none none " the x\n".toList,
       Field.mk "Y".toList false Kind.Int32Kind false false none none [],
       Field.mk "Tag".toList false Kind.EnumKind false false
         (some ⟨"Color".toList, [], []⟩) none []]) =
      some ["---@class Point @ a point".toList,
        "---@field X integer @ the x".toList,
        "---@field Y integer ".toList,
        "---@field Tag Color ".toList,
        [],
        "proto.Point = \"Point\"".toList] :=
  ((C16_genMessage_block protogen.Comments.String []
    (Message.mk "Point".toList false " a point\n".toList
      [Field.mk "X".toList false Kind.Int32Kind false false none none " the x\n".toList,
       Field.mk "Y".toList false Kind.Int32Kind false false none none [],
       Field.mk "Tag".toList false Kind.EnumKind false false
         (some ⟨"Color".toList, [], []⟩) none []]) rfl).1
    ["integer".toList, "integer".toList, "Color".toList] (by decide)).1.trans (by decide)

/-- A map entry leaves the buffer as it is. -/
theorem genMessage_mapEntry (format : GoString → GoString) (g : GeneratedFile) (m : Message)
    (hm : m.IsMapEntry = true) : genMessage format g m = some g := by
  simp [genMessage, hm]

/-- The loop over the messages prints the same lines when the map entries are
taken out of the sequence. -/
theorem foldlM_genMessage_filter (format : GoString → GoString) (msgs : List Message)
    (g : GeneratedFile) :
    msgs.foldlM (genMessage format) g =
      (msgs.filter fun m => !m.IsMapEntry).foldlM (genMessage format) g := by
  induction msgs generalizing g with
  | nil => rfl
  | cons m msgs ih =>
    cases hm : m.IsMapEntry with
    | true =>
      rw [List.foldlM_cons, genMessage_mapEntry format g m hm]
      simp only [List.filter_cons, hm, Bool.not_true, Bool.false_eq_true, if_false,
        Option.bind_eq_bind, Option.some_bind]
      exact ih g
    | false =>
      simp only [List.filter_cons, hm, Bool.not_false, if_true, List.foldlM_cons]
      cases genMessage format g m with
      | none => rfl
      | some g1 =>
        simp only [Option.bind_eq_bind, Option.some_bind]
        exact ih g1

/-- C12: for every message flagged as a map entry `genMessage` prints no line at
all, so the document `GenerateFile` produces for a file is the document of the
same file with the map entries taken out of the message sequence; and the type of
a map field is still "table<K,V>", computed from the first two fields of the
entry message that the field points to. -/
theorem C12_map_entries_not_emitted (gen : Plugin) (f : fileInfo) :
    (∀ (g : GeneratedFile) (m : Message), m.IsMapEntry = true →
      genMessage gen.format g m = some g) ∧
    GenerateFile.document gen f =
      GenerateFile.document gen
        ⟨f.Path, f.Deprecated, f.allEnums, f.allMessages.filter fun m => !m.IsMapEntry⟩ ∧
    (∀ (n t : GoString) (entry : Message) (key val : Field),
      entry.IsMapEntry = true → entry.Fields[0]? = some key → entry.Fields[1]? = some val →
      genMessage gen.format [] entry = some [] ∧
      fieldGoType (Field.mk n false Kind.MessageKind false true none (some entry) t) =
        (fieldGoType key).bind fun keyType => (fieldGoType val).bind fun valType =>
          some ("table<".toList ++ keyType ++ ",".toList ++ valType ++ ">".toList)) := by
  refine ⟨fun g m hm => genMessage_mapEntry gen.format g m hm, ?_, ?_⟩
  · simp only [GenerateFile.document, genGeneratedHeader]
    rw [foldlM_genMessage_filter]
  · intro n t entry key val he h0 h1
    refine ⟨genMessage_mapEntry gen.format [] entry he, ?_⟩
    rw [fieldGoType_map_eq n Kind.MessageKind none entry t entry.GoName rfl]
    cases hf : entry.Fields with
    | nil => rw [hf] at h0; simp at h0
    | cons a tl =>
      cases tl with
      | nil => rw [hf] at h1; simp at h1
      | cons b rest =>
        rw [hf] at h0 h1
        simp only [List.getElem?_cons_zero, List.getElem?_cons_succ, Option.some.injEq] at h0 h1
        subst h0 h1
        rfl

/-- A file with the message `Book`, which has the map field `Labels`, and the
entry message `Book.LabelsEntry`: the document has the block of `Book`, with the
type "table<string,integer>", and no block for the entry. -/
theorem C12_map_entries_not_emitted_witness :
    GenerateFile.document ⟨protogen.Comments.String, false, none, []⟩
      ⟨"book.proto".toList, false, [],
        [Message.mk "Book".toList false []
          [Field.mk "Labels".toList false Kind.MessageKind false true none
            (some (Message.mk "Book_LabelsEntry".toList true []
              [Field.mk "Key".toList false Kind.StringKind false false none none [],
               Field.mk "Value".toList false Kind.Int32Kind false false none none []])) []],
         Message.mk "Book_LabelsEntry".toList true []
          [Field.mk "Key".toList false Kind.StringKind false false none none [],
           Field.mk "Value".toList false Kind.Int32Kind false false none none []]]⟩ =
      some ["-- Code generated by protoc-gen-emmylua. DO NOT EDIT.".toList,
        "-- source: book.proto".toList,
        [],
        "local proto = \x7b\x7d".toList,
        [],
        "---@class Book @".toList,
        "---@field Labels table<string,integer> ".toList,
        [],
        "proto.Book = \"Book\"".toList,
        "return proto".toList] :=
  (C12_map_entries_not_emitted ⟨protogen.Comments.String, false, none, []⟩
      ⟨"book.proto".toList, false, [],
        [Message.mk "Book".toList false []
          [Field.mk "Labels".toList false Kind.MessageKind false true none
            (some (Message.mk "Book_LabelsEntry".toList true []
              [Field.mk "Key".toList false Kind.StringKind false false none none [],
               Field.mk "Value".toList false Kind.Int32Kind false false none none []])) []],
         Message.mk "Book_LabelsEntry".toList true []
          [Field.mk "Key".toList false Kind.StringKind false false none none [],
           Field.mk "Value".toList false Kind.Int32Kind false false none none []]]⟩).2.1.trans
    (by decide)

/-- The header does not depend on what was printed before, and its last three
lines are an empty line, the namespace declaration and an empty line. -/
theorem genGeneratedHeader_tail (gen : Plugin) (g : GeneratedFile) (f : fileInfo) :
    ∃ banner : GeneratedFile,
      genGeneratedHeader gen g f = g ++ banner ++ [[], "local proto = \x7b\x7d".toList, []] := by
  refine ⟨["-- Code generated by protoc-gen-emmylua. DO NOT EDIT.".toList] ++
    (if gen.GenerateVersionMarkers then
      ["-- versions:".toList,
       "-- \tprotoc-gen-emmylua ".toList ++ "v1.0".toList,
       "-- \tprotoc        ".toList ++
          (match gen.CompilerVersion with
          | none => "(unknown)".toList
          | some v =>
            "v".toList ++ formatNumber v.Major ++ ".".toList ++ formatNumber v.Minor ++
              ".".toList ++ formatNumber v.Patch),
       "-- \ttime          ".toList ++ gen.Now]
    else []) ++
    [if f.Deprecated then "-- ".toList ++ f.Path ++ " is a deprecated file.".toList
     else "-- source: ".toList ++ f.Path], ?_⟩
  cases hv : gen.GenerateVersionMarkers <;> cases hd : f.Deprecated <;>
    simp [genGeneratedHeader, hv, hd, GeneratedFile.P]

/-- Every message gets a block when the fields of the messages that are not map
entries are well-formed. -/
theorem blocks_of_wellFormed (format : GoString → GoString) (msgs : List Message)
    (hwf : ∀ m ∈ msgs, m.IsMapEntry = false → ∀ field ∈ m.Fields, field.wellFormed = true) :
    ∃ blocks : List GeneratedFile, msgs.map (genMessage format []) = blocks.map some := by
  induction msgs with
  | nil => exact ⟨[], rfl⟩
  | cons m msgs ih =>
    obtain ⟨blocks, hb⟩ := ih fun x hx => hwf x (List.mem_cons_of_mem _ hx)
    cases hm : m.IsMapEntry with
    | true => exact ⟨[] :: blocks, by simp [genMessage_mapEntry format [] m hm, hb]⟩
    | false =>
      obtain ⟨types, ht⟩ := types_of_wellFormed m.Fields (hwf m (List.mem_cons_self _ _) hm)
      have hg := genMessage_eq format [] m types hm ht
      exact ⟨_ :: blocks, by rw [List.map_cons, List.map_cons, hg, hb]⟩

/-- The document, when every message has a block. -/
theorem document_eq (gen : Plugin) (f : fileInfo) (blocks : List GeneratedFile)
    (hb : f.allMessages.map (genMessage gen.format []) = blocks.map some) :
    GenerateFile.document gen f =
      some (genGeneratedHeader gen [] f ++ (f.allEnums.map (genEnum gen.format [])).flatten ++
        blocks.flatten ++ ["return proto".toList]) := by
  simp only [GenerateFile.document, foldl_genEnum,
    foldlM_genMessage_blocks gen.format f.allMessages blocks _ hb]
  simp [GeneratedFile.P]

/-- C14, as stated, fails: the header does not end with the namespace
declaration.  For the file "a.proto" without enums and messages the document is
not a list of lines ending with "local proto = {}" followed by the line
"return proto": an empty line stands between the two. -/
theorem C14_header_counterexample :
    ¬ ∃ header : GeneratedFile,
      header.getLast? = some "local proto = \x7b\x7d".toList ∧
      GenerateFile.document ⟨protogen.Comments.String, false, none, []⟩
          ⟨"a.proto".toList, false, [], []⟩ =
        some (header ++ ["return proto".toList]) := by
  rintro ⟨header, hlast, hdoc⟩
  have hd : GenerateFile.document ⟨protogen.Comments.String, false, none, []⟩
      ⟨"a.proto".toList, false, [], []⟩ =
      some (["-- Code generated by protoc-gen-emmylua. DO NOT EDIT.".toList,
        "-- source: a.proto".toList, [], "local proto = \x7b\x7d".toList, []] ++
        ["return proto".toList]) := by decide
  rw [hd, Option.some.injEq] at hdoc
  have hh := List.append_cancel_right hdoc
  rw [← hh] at hlast
  exact absurd hlast (by decide)

/-- C14, amended: for every file in which every message gets a block (as it does
when the fields are well-formed), the document of `GenerateFile` is exactly the
header lines, whose last two lines are the namespace declaration
"local proto = {}" and an empty line, then the `genEnum` block of every enum in
the order of `allEnums`, then the `genMessage` block of every message in the order
of `allMessages`, then the one line "return proto". -/
theorem C14_document_structure (gen : Plugin) (f : fileInfo) :
    (∃ banner : GeneratedFile,
      genGeneratedHeader gen [] f = banner ++ ["local proto = \x7b\x7d".toList, []]) ∧
    (∀ blocks : List GeneratedFile,
      f.allMessages.map (genMessage gen.format []) = blocks.map some →
      GenerateFile.document gen f =
        some (genGeneratedHeader gen [] f ++
          (f.allEnums.map (genEnum gen.format [])).flatten ++
          blocks.flatten ++ ["return proto".toList])) ∧
    ((∀ m ∈ f.allMessages, m.IsMapEntry = false →
        ∀ field ∈ m.Fields, field.wellFormed = true) →
      ∃ blocks : List GeneratedFile,
        f.allMessages.map (genMessage gen.format []) = blocks.map some) := by
  refine ⟨?_, document_eq gen f, blocks_of_wellFormed gen.format f.allMessages⟩
  obtain ⟨banner, hb⟩ := genGeneratedHeader_tail gen [] f
  exact ⟨banner ++ [[]], by rw [hb]; simp⟩

/-- C15: for the file with the one enum `Color` (RED = 0, BLUE = 1) and the one
message `Point` (x and y of kind int32, tag of enum `Color`), without comments,
`GenerateFile` produces, in this order: the header; the annotation block of
`Color` with the values RED (0) and BLUE (1); the table binding RED to 0 and BLUE
to 1; the table binding RED to "RED" and BLUE to "BLUE"; the annotation block
of `Point` with the types integer, integer and Color for its three fields; the
line `proto.Point = "Point"`; and the line "return proto".  The names `x`, `y`
and `tag` stand for `field.GoName` of the three fields, which `protogen` derives
from the names in the schema; `hfmt` says that an empty comment is formatted as
the empty text. -/
theorem C15_end_to_end (gen : Plugin) (path : GoString) (deprecated : Bool)
    (x y tag : GoString) (hfmt : gen.format [] = []) :
    GenerateFile.document gen
      ⟨path, deprecated,
        [⟨"Color".toList, [], [⟨"RED".toList, 0, []⟩, ⟨"BLUE".toList, 1, []⟩]⟩],
        [Message.mk "Point".toList false []
          [Field.mk x false Kind.Int32Kind false false none none [],
           Field.mk y false Kind.Int32Kind false false none none [],
           Field.mk tag false Kind.EnumKind false false
             (some ⟨"Color".toList, [], [⟨"RED".toList, 0, []⟩, ⟨"BLUE".toList, 1, []⟩]⟩)
             none []]]⟩ =
      some (genGeneratedHeader gen []
          ⟨path, deprecated,
            [⟨"Color".toList, [], [⟨"RED".toList, 0, []⟩, ⟨"BLUE".toList, 1, []⟩]⟩],
            [Message.mk "Point".toList false []
              [Field.mk x false Kind.Int32Kind false false none none [],
               Field.mk y false Kind.Int32Kind false false none none [],
               Field.mk tag false Kind.EnumKind false false
                 (some ⟨"Color".toList, [],
                   [⟨"RED".toList, 0, []⟩, ⟨"BLUE".toList, 1, []⟩]⟩)
                 none []]]⟩ ++
        ["---@class Color @".toList,
         "---@field public RED integer|string @0 ".toList,
         "---@field public BLUE integer|string @1 ".toList,
         [],
         "---@type Color".toList,
         "proto.Color = \x7b".toList,
         "\tRED = 0,".toList,
         "\tBLUE = 1,".toList,
         "\x7d".toList,
         [],
         "---@type Color".toList,
         "proto.ColorStr = \x7b".toList,
         "\tRED = \"RED\",".toList,
         "\tBLUE = \"BLUE\",".toList,
         "\x7d".toList,
         [],
         "---@class Point @".toList,
         "---@field ".toList ++ x ++ " integer ".toList,
         "---@field ".toList ++ y ++ " integer ".toList,
         "---@field ".toList ++ tag ++ " Color ".toList,
         [],
         "proto.Point = \"Point\"".toList,
         "return proto".toList]) := by
  have hS : trailingComment.String [] = [] := by decide
  have h0 : formatNumber 0 = "0".toList := by decide
  have h1 : formatNumber 1 = "1".toList := by decide
  have hx : ∀ n : GoString,
      fieldGoType (Field.mk n false Kind.Int32Kind false false none none []) =
        some "integer".toList := by
    intro n; rw [fieldGoType_eq]; rfl
  have ht : ∀ (n : GoString) (e : Enum),
      fieldGoType (Field.mk n false Kind.EnumKind false false (some e) none []) =
        some e.GoName := by
    intro n e; rw [fieldGoType_eq]; rfl
  have hblock := genMessage_eq gen.format []
    (Message.mk "Point".toList false []
      [Field.mk x false Kind.Int32Kind false false none none [],
       Field.mk y false Kind.Int32Kind false false none none [],
       Field.mk tag false Kind.EnumKind false false
         (some ⟨"Color".toList, [], [⟨"RED".toList, 0, []⟩, ⟨"BLUE".toList, 1, []⟩]⟩)
         none []])
    ["integer".toList, "integer".toList, "Color".toList] rfl
    (by simp only [Message.Fields, List.map_cons, List.map_nil, hx, ht])
  rw [document_eq gen _ [_] (by rw [List.map_cons, List.map_nil, hblock]; rfl)]
  simp [genEnum_eq, fieldLine, hfmt, hS, h0, h1, Field.GoName, Field.Trailing, Message.Fields,
    Message.GoName, Message.Leading, String.toList]

/-- The document for the file "shape.proto", compiled by protoc 3.21.12 with
version markers on, the Go names of the fields being X, Y and Tag. -/
theorem C15_end_to_end_witness :
    GenerateFile.document
      ⟨protogen.Comments.String, true, some ⟨3, 21, 12⟩, "2024-01-01 00:00:00".toList⟩
      ⟨"shape.proto".toList, false,
        [⟨"Color".toList, [], [⟨"RED".toList, 0, []⟩, ⟨"BLUE".toList, 1, []⟩]⟩],
        [Message.mk "Point".toList false []
          [Field.mk "X".toList false Kind.Int32Kind false false none none [],
           Field.mk "Y".toList false Kind.Int32Kind false false none none [],
           Field.mk "Tag".toList false Kind.EnumKind false false
             (some ⟨"Color".toList, [], [⟨"RED".toList, 0, []⟩, ⟨"BLUE".toList, 1, []⟩]⟩)
             none []]]⟩ =
      some ["-- Code generated by protoc-gen-emmylua. DO NOT EDIT.".toList,
         "-- versions:".toList,
         "-- \tprotoc-gen-emmylua v1.0".toList,
         "-- \tprotoc        v3.21.12".toList,
         "-- \ttime          2024-01-01 00:00:00".toList,
         "-- source: shape.proto".toList,
         [],
         "local proto = \x7b\x7d".toList,
         [],
         "---@class Color @".toList,
         "---@field public RED integer|string @0 ".toList,
         "---@field public BLUE integer|string @1 ".toList,
         [],
         "---@type Color".toList,
         "proto.Color = \x7b".toList,
         "\tRED = 0,".toList,
         "\tBLUE = 1,".toList,
         "\x7d".toList,
         [],
         "---@type Color".toList,
         "proto.ColorStr = \x7b".toList,
         "\tRED = \"RED\",".toList,
         "\tBLUE = \"BLUE\",".toList,
         "\x7d".toList,
         [],
         "---@class Point @".toList,
         "---@field X integer ".toList,
         "---@field Y integer ".toList,
         "---@field Tag Color ".toList,
         [],
         "proto.Point = \"Point\"".toList,
         "return proto".toList] :=
  (C15_end_to_end
    ⟨protogen.Comments.String, true, some ⟨3, 21, 12⟩, "2024-01-01 00:00:00".toList⟩
    "shape.proto".toList false "X".toList "Y".toList "Tag".toList (by decide)).trans
    (by decide)

/-! ## No newline in the lines -/

/-- A decimal digit is not a newline. -/
theorem digitChar_ne_newline : ∀ n : Nat, n < 10 → Nat.digitChar n ≠ '\n' := by
  decide

/-- The digits of a number contain no newline. -/
theorem toDigitsCore_no_newline (fuel : Nat) :
    ∀ (n : Nat) (ds : List Char), '\n' ∉ ds → '\n' ∉ Nat.toDigitsCore 10 fuel n ds := by
  induction fuel with
  | zero => intro n ds h; simpa [Nat.toDigitsCore] using h
  | succ fuel ih =>
    intro n ds h
    have hcons : '\n' ∉ Nat.digitChar (n % 10) :: ds := by
      intro hm
      rcases List.mem_cons.1 hm with h1 | h1
      · exact digitChar_ne_newline _ (Nat.mod_lt n (by decide)) h1.symm
      · exact h h1
    unfold Nat.toDigitsCore
    simp only
    split
    · exact hcons
    · exact ih _ _ hcons

/-- The decimal text of a natural number contains no newline. -/
theorem natRepr_no_newline (n : Nat) : '\n' ∉ (toString n).toList := by
  have h := toDigitsCore_no_newline (n + 1) n [] (List.not_mem_nil _)
  simpa [toString, Nat.repr, Nat.toDigits, String.toList, List.asString] using h

/-- The text `fmt.Fprint` writes for an integer contains no newline. -/
theorem formatNumber_no_newline (n : Int) : '\n' ∉ formatNumber n := by
  unfold formatNumber
  cases n with
  | ofNat m => exact natRepr_no_newline m
  | negSucc m =>
    have h := natRepr_no_newline (m + 1)
    intro hm
    have hm2 : '\n' ∈ ("-" ++ toString (m + 1)).toList := hm
    rw [String.toList, String.data_append] at hm2
    rcases List.mem_append.1 hm2 with h1 | h1
    · exact absurd h1 (by decide)
    · exact h h1

/-- The value of `goType` after the kind switch has no newline when the names of
the referenced enum and message have none. -/
theorem base_clean (kind : Kind) (en : Option Enum) (msg : Option Message) (goType : GoString)
    (hen : ∀ e, en = some e → '\n' ∉ e.GoName) (hmsg : ∀ m, msg = some m → '\n' ∉ m.GoName)
    (hb : fieldGoType.base kind en msg = some goType) : '\n' ∉ goType := by
  cases kind <;> simp only [fieldGoType.base] at hb <;> first
    | (cases hb; decide)
    | (cases en with
       | none => simp at hb
       | some e =>
         simp only [Option.map_some', Option.some.injEq] at hb
         rw [← hb]; exact hen e rfl)
    | (cases msg with
       | none => simp at hb
       | some m =>
         simp only [Option.map_some', Option.some.injEq] at hb
         rw [← hb]; exact hmsg m rfl)

/-- The type of a field has no newline when the names it refers to have none; by
induction on the size of the descriptor tree. -/
theorem fieldGoType_clean_aux (k : Nat) :
    ∀ f : Field, sizeOf f ≤ k → f.cleanRefs = true →
      ∀ T, fieldGoType f = some T → '\n' ∉ T := by
  induction k with
  | zero =>
    intro f hs
    cases f
    simp at hs
  | succ k ih =>
    intro f hs hc T hT
    cases f with
    | mk n w kind l mp en msg t =>
      rw [cleanRefs_eq] at hc
      simp only [Bool.and_eq_true] at hc
      obtain ⟨hc1, hc2⟩ := hc
      have hen : ∀ e, en = some e → '\n' ∉ e.GoName := by
        intro e he; subst he; simpa using hc1
      have hmsg : ∀ m, msg = some m → '\n' ∉ m.GoName := by
        intro m hm; subst hm
        simp only [Bool.and_eq_true] at hc2
        simpa using hc2.1
      rw [fieldGoType_eq] at hT
      cases w with
      | true =>
        simp at hT
        simp [hT]
      | false =>
        cases hb : fieldGoType.base kind en msg with
        | none => simp [hb] at hT
        | some goType =>
          have hg := base_clean kind en msg goType hen hmsg hb
          rw [hb] at hT
          cases l with
          | true =>
            simp at hT
            rw [← hT]
            simp [hg]
          | false =>
            cases mp with
            | false =>
              simp at hT
              rw [← hT]; exact hg
            | true =>
              simp only [Bool.false_eq_true, if_false, if_true] at hT
              cases msg with
              | none => simp at hT
              | some m =>
                cases m with
                | mk mn me ml fields =>
                  cases fields with
                  | nil => simp [Message.Fields] at hT
                  | cons key tl =>
                    cases tl with
                    | nil => simp [Message.Fields] at hT
                    | cons val rest =>
                      simp only [Message.Fields, Message.GoName, Bool.not_true, Bool.false_or,
                        Bool.and_eq_true] at hc2
                      simp only [Field.mk.sizeOf_spec, Option.some.sizeOf_spec,
                        Message.mk.sizeOf_spec, List.cons.sizeOf_spec] at hs
                      simp only [Message.Fields] at hT
                      cases hk : fieldGoType key with
                      | none => simp [hk] at hT
                      | some kt =>
                        cases hv : fieldGoType val with
                        | none => simp [hk, hv] at hT
                        | some vt =>
                          have h1 := ih key (by omega) hc2.2.1 kt hk
                          have h2 := ih val (by omega) hc2.2.2 vt hv
                          simp only [hk, hv, Option.some_bind, Option.some.injEq] at hT
                          rw [← hT]
                          simp [tableOf, h1, h2]

/-- The type of a field has no newline when the names it refers to have none. -/
theorem fieldGoType_clean (f : Field) (hc : f.cleanRefs = true) (T : GoString)
    (hT : fieldGoType f = some T) : '\n' ∉ T :=
  fieldGoType_clean_aux (sizeOf f) f (Nat.le_refl _) hc T hT

/-- The loop over the fields only adds lines without newline. -/
theorem foldlM_genMessageField_clean (format : GoString → GoString) (fields : List Field)
    (hf : ∀ field ∈ fields, '\n' ∉ field.GoName ∧ field.cleanRefs = true) :
    ∀ g g1 : GeneratedFile, (∀ line ∈ g, '\n' ∉ line) →
      fields.foldlM (genMessageField format) g = some g1 → ∀ line ∈ g1, '\n' ∉ line := by
  induction fields with
  | nil =>
    intro g g1 hg h
    simp at h
    rw [← h]; exact hg
  | cons field fields ih =>
    intro g g1 hg h
    rw [List.foldlM_cons, genMessageField_eq] at h
    cases hT : fieldGoType field with
    | none => simp [hT] at h
    | some T =>
      simp only [hT, Option.map_some', Option.bind_eq_bind, Option.some_bind] at h
      have hfield := hf field (List.mem_cons_self _ _)
      have hclean := fieldGoType_clean field hfield.2 T hT
      refine ih (fun x hx => hf x (List.mem_cons_of_mem _ hx)) _ g1 ?_ h
      intro line hline
      rcases List.mem_append.1 hline with h1 | h1
      · exact hg line h1
      · rw [List.mem_singleton] at h1
        rw [h1]
        simp [fieldLine, hfield.1, hclean, trailingComment_no_newline]

/-- C20: comments cannot break the line structure of the document.  For every
enum whose name and value names contain no newline, no line printed by `genEnum`
contains a newline; for every message whose name, field names and referenced type
names (also those reached through map entries) contain no newline, no line
printed by `genMessage` contains a newline; whatever the leading and trailing
comments are and whatever the formatting of comments does.  The lines of the
message exist when its fields are well-formed. -/
theorem C20_no_newline_in_lines (format : GoString → GoString) (e : Enum) (m : Message)
    (he : '\n' ∉ e.GoName) (hv : ∀ value ∈ e.Values, '\n' ∉ value.Name)
    (hm : '\n' ∉ m.GoName)
    (hf : ∀ field ∈ m.Fields, '\n' ∉ field.GoName ∧ field.cleanRefs = true) :
    (∀ line ∈ genEnum format [] e, '\n' ∉ line) ∧
    (∀ lines, genMessage format [] m = some lines → ∀ line ∈ lines, '\n' ∉ line) ∧
    ((∀ field ∈ m.Fields, field.wellFormed = true) →
      ∃ lines, genMessage format [] m = some lines) := by
  refine ⟨?_, ?_, ?_⟩
  · intro line hline
    rw [genEnum_eq] at hline
    simp only [List.nil_append, List.mem_append, List.mem_cons, List.mem_map,
      List.mem_singleton, List.not_mem_nil, or_false] at hline
    rcases hline with
      ((((((h | ⟨v, hvm, h⟩) | h | h | h) | ⟨v, hvm, h⟩) | h | h | h | h) | ⟨v, hvm, h⟩) | h | h)
    all_goals first
      | (rw [h]; simp [String.toList, he, trailingComment_no_newline])
      | (rw [← h]
         simp [String.toList, hv v hvm, formatNumber_no_newline, trailingComment_no_newline])
  · intro lines hl
    unfold genMessage genMessageFields at hl
    cases hme : m.IsMapEntry with
    | true =>
      rw [hme, if_pos rfl, Option.some.injEq] at hl
      rw [← hl]
      exact fun line hline => absurd hline (List.not_mem_nil _)
    | false =>
      rw [hme, if_neg Bool.false_ne_true] at hl
      simp only at hl
      split at hl
      · exact absurd hl (by simp)
      · rename_i g1 hfold
        have hg1 := foldlM_genMessageField_clean format m.Fields hf _ g1 (by
          intro line hline
          simp only [GeneratedFile.P, List.nil_append, List.mem_singleton] at hline
          rw [hline]
          simp [hm, trailingComment_no_newline]) hfold
        simp only [Option.some.injEq] at hl
        rw [← hl]
        intro line hline
        simp only [GeneratedFile.P, List.mem_append, List.mem_singleton] at hline
        rcases hline with (h | h) | h
        · exact hg1 line h
        · rw [h]; simp
        · rw [h]; simp [hm]
  · intro hwf
    cases hme : m.IsMapEntry with
    | true => exact ⟨[], genMessage_mapEntry format [] m hme⟩
    | false =>
      obtain ⟨types, ht⟩ := types_of_wellFormed m.Fields hwf
      exact ⟨_, genMessage_eq format [] m types hme ht⟩

/-- The enum `Color` and the message `Point` with comments of several lines: the
comments are dropped and every printed line is free of newlines. -/
theorem C20_no_newline_in_lines_witness :
    (∀ line ∈ genEnum protogen.Comments.String []
        ⟨"Color".toList, " the\n colors\n".toList,
          [⟨"RED".toList, 0, " red\n or so\n".toList⟩]⟩, '\n' ∉ line) ∧
    (∀ lines, genMessage protogen.Comments.String []
        (Message.mk "Point".toList false " a\n point\n".toList
          [Field.mk "X".toList false Kind.Int32Kind false false none none
            " the\n x\n".toList]) = some lines → ∀ line ∈ lines, '\n' ∉ line) ∧
    ((∀ field ∈ (Message.mk "Point".toList false " a\n point\n".toList
          [Field.mk "X".toList false Kind.Int32Kind false false none none
            " the\n x\n".toList]).Fields, field.wellFormed = true) →
      ∃ lines, genMessage protogen.Comments.String []
        (Message.mk "Point".toList false " a\n point\n".toList
          [Field.mk "X".toList false Kind.Int32Kind false false none none
            " the\n x\n".toList]) = some lines) :=
  C20_no_newline_in_lines protogen.Comments.String
    ⟨"Color".toList, " the\n colors\n".toList, [⟨"RED".toList, 0, " red\n or so\n".toList⟩]⟩
    (Message.mk "Point".toList false " a\n point\n".toList
      [Field.mk "X".toList false Kind.Int32Kind false false none none " the\n x\n".toList])
    (by decide) (by decide) (by decide) (by decide)

end genlua
